import Mathlib

/-!
Verification development for the bulk-test orchestration core of the
mcp-inspector client (catalog build, category partitioning, selection
state, execution engine, history store).

Modelling conventions:
* JavaScript strings are modelled as lists of characters (abbrev Str).
* JavaScript runtime values of type unknown (tool arguments, decoded
  JSON) are modelled by the opaque value universe JSValue with decidable
  equality; their internal structure is never inspected by the code
  under verification.
* JSON.parse is a JavaScript builtin, not code of this repository; where
  a function calls it, the model takes an abstract parameter
  parse : Str -> Option JSValue (none models a parse exception).
* JavaScript Map objects are modelled as insertion-ordered association
  lists (set overwrites in place, otherwise appends, exactly the JS
  iteration-order semantics); JS plain objects used as ordered maps of
  booleans are likewise modelled as ordered association lists.
* Wall-clock fields (durationMillis, startedAt) are not modelled; no
  verified property mentions them.
-/

abbrev Str := List Char

/-- Opaque model of a JavaScript structured value (the unknown payloads
carried as tool arguments).  The orchestration code never inspects the
structure of these values, so a small universe with decidable equality
suffices. -/
inductive JSValue where
  | null : JSValue
  | bool (b : Bool) : JSValue
  | num (n : Int) : JSValue
  | str (s : Str) : JSValue
deriving DecidableEq, Repr

/-- JavaScript truthiness of a JSValue (used by the if-checks in
StorageManager.loadSaved and LocalStorage.getItem). -/
def JSValue.truthy : JSValue → Bool
  | .null => false
  | .bool b => b
  | .num n => decide (n ≠ 0)
  | .str s => decide (s ≠ [])

/-- PallasTool (src/unnamed/part_005): a catalog record with composite
identity.  Every call site uses the default delimiter, a single dash. -/
structure PallasTool where
  server : Str
  toolName : Str
  args : JSValue
deriving DecidableEq, Repr

structure StoredTestTool where
  name : Str
  arguments : JSValue
deriving DecidableEq, Repr

/-- fullName computed in the PallasTool constructor:
[server, delimiter, toolName].join("") with delimiter "-". -/
def PallasTool.name (p : PallasTool) : Str :=
  p.server ++ '-' :: p.toolName

/-- isSameTool from PallasTool: fullString === this.fullName. -/
def PallasTool.isSameTool (p : PallasTool) (fullString : Str) : Bool :=
  decide (fullString = p.name)

/-- getToStorage from PallasTool: the persisted pair of fullName and
arguments. -/
def PallasTool.getToStorage (p : PallasTool) : StoredTestTool :=
  { name := p.name, arguments := p.args }

/-- JavaScript String.prototype.split with separator "-": a list of
dash-free chunks, one more than the number of dashes. -/
def splitOnDash : Str → List Str
  | [] => [[]]
  | '-' :: rest => [] :: splitOnDash rest
  | c :: rest => (c :: (splitOnDash rest).headD []) :: (splitOnDash rest).tail

/-- JavaScript Array.prototype.join with separator "-". -/
def joinDash (chunks : List Str) : Str :=
  List.intercalate ['-'] chunks

/-- convertStoredToolToPallasTool (src/client/src/lib/pallas-sdk.ts):
destructure name.split("-") into server and remaining parts, re-join the
remainder with "-", rebuild a PallasTool. -/
def convertStoredToolToPallasTool (storedTool : StoredTestTool) : PallasTool :=
  { server := (splitOnDash storedTool.name).headD []
    toolName := joinDash (splitOnDash storedTool.name).tail
    args := storedTool.arguments }

/-- The testCases map of TestCaseManager: a JS Map from fullName to
PallasTool, modelled as an insertion-ordered association list. -/
abbrev TestCaseMap := List (Str × PallasTool)

/-- JS Map.prototype.set: overwrite in place when the key is present,
append otherwise. -/
def mapSet (m : TestCaseMap) (k : Str) (v : PallasTool) : TestCaseMap :=
  if m.any (fun e => e.1 = k) then
    m.map (fun e => if e.1 = k then (k, v) else e)
  else
    m ++ [(k, v)]

/-- JS Map.prototype.get as an option. -/
def lookupA (m : TestCaseMap) (k : Str) : Option PallasTool :=
  match m.find? (fun e => e.1 = k) with
  | some e => some e.2
  | none => none

/-- JS Map.prototype.has. -/
def mapHasB (m : TestCaseMap) (k : Str) : Bool :=
  m.any (fun e => e.1 = k)

/-- A parsed CSV row as seen by PallasTool.fromNotionCSV: the three
required columns, each possibly absent.  An absent column models
row[key] === undefined; fromNotionCSV also rejects the empty string
because JS !server is true for "". -/
structure CSVRow where
  server : Option Str
  tool : Option Str
  request_args : Option Str
deriving DecidableEq, Repr

/-- JS falsiness of an optional string field: undefined or empty. -/
def falsyField : Option Str → Bool
  | none => true
  | some s => decide (s = [])

/-- PallasTool.fromNotionCSV (src/unnamed/part_005 lines 49-74): check
the three required fields, JSON-decode request_args via the abstract
parse collaborator, build the tool with the default delimiter.  The
error strings mirror the thrown Error messages. -/
def PallasTool.fromNotionCSV (parse : Str → Option JSValue) (row : CSVRow) :
    Except Str PallasTool :=
  if falsyField row.server then
    .error ("Missing required field: server".toList)
  else if falsyField row.tool then
    .error ("Missing required field: tool".toList)
  else if falsyField row.request_args then
    .error ("Missing required field: request_args".toList)
  else
    match parse (row.request_args.getD []) with
    | none => .error ("JSON parse error".toList)
    | some v =>
      .ok { server := row.server.getD [], toolName := row.tool.getD [], args := v }

/-- TestCaseManager._generateMap (TestCaseManager.ts lines 59-66): fold
the rows into a fresh Map, aborting on the first malformed row (the
thrown error propagates out of the loop). -/
def generateMap (parse : Str → Option JSValue) :
    List CSVRow → TestCaseMap → Except Str TestCaseMap
  | [], acc => .ok acc
  | row :: rest, acc =>
    match PallasTool.fromNotionCSV parse row with
    | .error e => .error e
    | .ok tool => generateMap parse rest (mapSet acc tool.name tool)

/-- TestCaseManager.loadTestParameters (TestCaseManager.ts lines 43-53):
build the map from the loaded rows; on success install it, on failure
rethrow and leave this.testCases untouched.  The pair is the new
testCases field together with the surfaced error, if any. -/
def loadTestParameters (parse : Str → Option JSValue) (rows : List CSVRow)
    (testCases : Option TestCaseMap) : Option TestCaseMap × Option Str :=
  match generateMap parse rows [] with
  | .error e => (testCases, some e)
  | .ok m => (some m, none)

/-- A row is malformed exactly when fromNotionCSV would throw on it:
a required field absent or empty, or request_args not valid JSON. -/
def rowMalformed (parse : Str → Option JSValue) (row : CSVRow) : Bool :=
  falsyField row.server || falsyField row.tool || falsyField row.request_args
    || (parse (row.request_args.getD [])).isNone

/-- The composed fullName a well-formed row produces. -/
def rowFullName (row : CSVRow) : Str :=
  row.server.getD [] ++ '-' :: row.tool.getD []

/-- StorageManager.formatSelectedForStorage (pallas-sdk.ts lines
120-127): iterate the map values in insertion order and take each
tool.getToStorage(). -/
def formatSelectedForStorage (m : TestCaseMap) : List StoredTestTool :=
  m.map (fun e => e.2.getToStorage)

/-- StorageManager.storeLastTests (pallas-sdk.ts lines 129-147): push
the formatted batch, evict the oldest entry when the cap of 3 is
exceeded.  The subsequent write through the persistence collaborator is
modelled by persistedShape below. -/
def storeLastTests (historyTests : List (List StoredTestTool)) (m : TestCaseMap) :
    List (List StoredTestTool) :=
  let pushed := historyTests ++ [formatSelectedForStorage m]
  if 3 < pushed.length then pushed.tail else pushed

/-- The JSON shape written by storeLastTests: each stored tool projected
to its name and arguments fields (a structural copy). -/
def persistedShape (historyTests : List (List StoredTestTool)) :
    List (List StoredTestTool) :=
  historyTests.map (fun tests =>
    tests.map (fun tool => { name := tool.name, arguments := tool.arguments }))

/-- StorageManager.loadSaved viewed at the structured level: the
persisted value (JSON transport of the array of arrays, with the
JSON.stringify in LocalStorage.setItem and the JSON.parse in
LocalStorage.getItem and loadSaved modelled as a faithful codec of the
structured value), absent yielding the initial empty log. -/
def loadSavedStored (persisted : Option (List (List StoredTestTool))) :
    List (List StoredTestTool) :=
  persisted.getD []

/-- StorageManager.getHistoryTests (pallas-sdk.ts lines 101-105):
rebuild a PallasTool from every stored pair. -/
def getHistoryTests (historyTests : List (List StoredTestTool)) :
    List (List PallasTool) :=
  historyTests.map (fun testArray => testArray.map convertStoredToolToPallasTool)

/-- LocalStorage.getItem (storage.ts lines 19-27): read the raw string,
JSON-parse it, return null when the key is absent, the raw string is
empty (falsy), or parsing throws (the catch returns null). -/
def LocalStorage.getItem (parse : Str → Option JSValue) (raw : Option Str) :
    Option JSValue :=
  match raw with
  | none => none
  | some s => if s = [] then none else parse s

/-- StorageManager.loadSaved (pallas-sdk.ts lines 88-99) composed with
LocalStorage.getItem, at the raw-value level: if the stored value is
truthy, JSON.parse it once more (coerce models the implicit JS
string coercion of the already-decoded value) and install the result
when truthy, falling back to the empty log; a parse failure is caught
and also yields the empty log.  interp models the untyped JS assignment
of the decoded value into the historyTests field. -/
def StorageManager.loadSaved (parse : Str → Option JSValue)
    (coerce : JSValue → Str) (interp : JSValue → List (List StoredTestTool))
    (raw : Option Str) : List (List StoredTestTool) :=
  match LocalStorage.getItem parse raw with
  | none => []
  | some saved =>
    if saved.truthy then
      match parse (coerce saved) with
      | none => []
      | some parsed => if parsed.truthy then interp parsed else []
    else []

/-- BrowserCSVLoader.parseCSVLine (csv.ts lines 58-82) as a character
automaton: quote-pair collapse inside quotes first, then quote toggle,
then comma-as-separator outside quotes, all other characters appended
to the current field. -/
def parseCSVLineAux : Bool → Str → Str → List Str
  | _, current, [] => [current]
  | true, current, '"' :: '"' :: rest => parseCSVLineAux true (current ++ ['"']) rest
  | inQuotes, current, '"' :: rest => parseCSVLineAux (!inQuotes) current rest
  | false, current, ',' :: rest => current :: parseCSVLineAux false [] rest
  | inQuotes, current, c :: rest => parseCSVLineAux inQuotes (current ++ [c]) rest

def parseCSVLine (line : Str) : List Str :=
  parseCSVLineAux false [] line

/-- JavaScript String.prototype.split with separator a newline. -/
def splitOnNewline : Str → List Str
  | [] => [[]]
  | '\n' :: rest => [] :: splitOnNewline rest
  | c :: rest =>
    match splitOnNewline rest with
    | [] => [[c]]
    | chunk :: chunks => (c :: chunk) :: chunks

/-- JavaScript String.prototype.trim: strip leading and trailing
whitespace. -/
def jsTrim (s : Str) : Str :=
  (s.dropWhile Char.isWhitespace).reverse.dropWhile Char.isWhitespace |>.reverse

/-- BrowserCSVLoader.createRowFromValues (csv.ts lines 48-56): pair each
header with the value at its index, defaulting to the empty string. -/
def createRowFromValues (headers : List Str) (values : List Str) :
    List (Str × Str) :=
  headers.enum.map (fun h => (h.2, values.getD h.1 []))

/-- BrowserCSVLoader.parseCSVText (csv.ts lines 28-34): trim the text,
split it on newlines, parse the first line as the (trimmed) header row,
parse every remaining line into a row keyed by the headers.  Note the
newline split happens before any quote processing. -/
def parseCSVText (csvText : Str) : List (List (Str × Str)) :=
  let lines := splitOnNewline (jsTrim csvText)
  let headers := (parseCSVLine (lines.headD [])).map jsTrim
  (lines.tail).map (fun line => createRowFromValues headers (parseCSVLine line))

/-- Doubling of quote characters, the escaping scheme of the tabular
format (internal quotes written twice inside a quoted field). -/
def escapeQuotes : Str → Str
  | [] => []
  | '"' :: rest => '"' :: '"' :: escapeQuotes rest
  | c :: rest => c :: escapeQuotes rest

/-- A category of the selector (pallas-sdk.ts parsedToolForSelector):
name, expanded flag, insertion-ordered items. -/
structure Category where
  name : Str
  expanded : Bool
  items : List Str
deriving DecidableEq, Repr

/-- The category a tool name is partitioned into: the prefix before the
first dash (tool.name.indexOf(delimiter) with delimiter "-"), except
that ensureCategory coerces a falsy argument — no dash at all, or an
empty prefix from a name that starts with the dash — to the
uncategorized sentinel (the `if (!category)` check in
parsedToolForSelector's ensureCategory). -/
def toolCategory (name : Str) : Str :=
  if (name.dropWhile (fun c => c ≠ '-')) = [] then "uncategorized".toList
  else if name.takeWhile (fun c => c ≠ '-') = [] then "uncategorized".toList
  else name.takeWhile (fun c => c ≠ '-')

/-- The item name a tool contributes: the remainder after the first
dash, or the full name when no dash occurs. -/
def toolItem (name : Str) : Str :=
  if (name.dropWhile (fun c => c ≠ '-')) = [] then name
  else (name.dropWhile (fun c => c ≠ '-')).tail

/-- ensureCategory followed by items.push inside the
parsedToolForSelector loop: append the item to the category when it
already exists, otherwise create the category (expanded, lazily, at the
end of the map) with the single item. -/
def insertTool (m : List Category) (cat item : Str) : List Category :=
  if m.any (fun c => c.name = cat) then
    m.map (fun c => if c.name = cat then
      { c with items := c.items ++ [item] } else c)
  else
    m ++ [{ name := cat, expanded := true, items := [item] }]

/-- parsedToolForSelector (pallas-sdk.ts lines 327-361): fold the tool
names through the lazily-created category map and return the values in
insertion order. -/
def parsedToolForSelector (tools : List Str) : List Category :=
  tools.foldl (fun m t => insertTool m (toolCategory t) (toolItem t)) []

/-- First-seen deduplication, the order in which categories are created
(specification wording of the Category Partitioner contract). -/
def firstSeen : List Str → List Str
  | [] => []
  | a :: as => a :: firstSeen (as.filter (fun b => b ≠ a))
termination_by l => l.length
decreasing_by
  simp only [List.length_cons]
  exact Nat.lt_succ_of_le (List.length_filter_le _ _)

/-- Modelled from the specification wording of the Category Partitioner
(section 4.3), amended at one point the code forces: categories in
first-seen order, each holding, in input order, the item names of
exactly the tools that map to it, where a tool maps to the prefix
before its first dash unless that prefix is empty or there is no dash —
both are filed under the uncategorized sentinel (the code coerces the
empty prefix, where the specification wording names the category by the
plain prefix name[0:i]). -/
def partitionSpec (tools : List Str) : List Category :=
  (firstSeen (tools.map toolCategory)).map (fun c =>
    { name := c
      expanded := true
      items := (tools.filter (fun t => toolCategory t = c)).map toolItem })

/-- isTestEnabled (src/unnamed/part_001 lines 107-125): no catalog means
nothing enabled; otherwise try the bare item name as a key, then the
composed category-delimiter-item key, then scan every entry for a
fullName equal to either form, short-circuiting on the first success. -/
def isTestEnabled (enabledTests : Option TestCaseMap)
    (categoryName testName : Str) : Bool :=
  match enabledTests with
  | none => false
  | some m =>
    if mapHasB m testName then true
    else if mapHasB m (categoryName ++ '-' :: testName) then true
    else m.any (fun e =>
      e.2.isSameTool testName || e.2.isSameTool (categoryName ++ '-' :: testName))

/-- The items record of one category of the SelectionData, an ordered
map from item name to its selected flag (JS objects preserve insertion
order, and the reduce in selectCategory rebuilds the same key order). -/
abbrev ItemsMap := List (Str × Bool)

/-- useSelection.selectCategory (src/unnamed/part_001 lines 183-204)
restricted to the items of the targeted category (the only part of the
state it rewrites): compute the uniform new value as the negation of
every enabled item already being selected, then set exactly the enabled
items to it, leaving the rest untouched. -/
def selectCategory (enabledTests : Option TestCaseMap) (categoryName : Str)
    (items : ItemsMap) : ItemsMap :=
  let enabledItems := items.filter (fun e => isTestEnabled enabledTests categoryName e.1)
  let selectedEnabledCount := (enabledItems.filter (fun e => e.2)).length
  let totalEnabledCount := enabledItems.length
  let newValue : Bool := decide (selectedEnabledCount ≠ totalEnabledCount)
  items.map (fun e =>
    if isTestEnabled enabledTests categoryName e.1 then (e.1, newValue) else e)

/-- TestResult status of the execution engine
(src/unnamed/part_002). -/
inductive CallStatus where
  | running
  | success
  | error
deriving DecidableEq, Repr

/-- TestResult of the execution engine (src/unnamed/part_002 lines
16-23); durationMillis and the timestamp are wall-clock data and not
modelled. -/
structure TestResult where
  toolName : Str
  status : CallStatus
  result : Option JSValue
  error : Option Str
deriving DecidableEq, Repr

/-- The settled record one dispatched call produces (the body of the
map in runTests, lines 133-156): success with the resolved value, or
error with the string-coerced message; outcome is the invocation
collaborator with every call settled. -/
def settleCall (outcome : Str → Except Str JSValue) (toolName : Str) : TestResult :=
  match outcome toolName with
  | .ok v =>
    { toolName := toolName, status := .success, result := some v, error := none }
  | .error e =>
    { toolName := toolName, status := .error, result := none, error := some e }

/-- runTests (src/unnamed/part_002 lines 125-163) observed after the
Promise.all barrier: guard against a disconnected client or an empty
selection (a no-op that leaves the previous results), otherwise clear
the results and produce one settled record per selected tool; the
finally clause always leaves isRunning false.  Settlements append in
completion order; the model lists them in dispatch order, which agrees
up to permutation and so preserves every per-status count. -/
def runTests (isConnected : Bool) (selectedTools : List Str)
    (outcome : Str → Except Str JSValue) (prevResults : List TestResult) :
    Bool × List TestResult :=
  if !isConnected || selectedTools.isEmpty then (false, prevResults)
  else (false, selectedTools.map (settleCall outcome))

/-- One selected {category, test} pair handed to onRunTests. -/
structure TestSelection where
  category : Str
  test : Str
deriving DecidableEq, Repr

/-- The composed key the run handler looks up for a selection. -/
def composedKey (s : TestSelection) : Str :=
  s.category ++ '-' :: s.test

/-- filterTestCases (pallas-sdk.ts lines 363-381): keep, keyed by the
composed key, the catalog entry of every selection whose composed key
the catalog has; selections without a match contribute nothing. -/
def filterTestCases (declaration : List TestSelection) (available : TestCaseMap) :
    TestCaseMap :=
  declaration.foldl (fun m sel =>
    match lookupA available (composedKey sel) with
    | some tool => mapSet m (composedKey sel) tool
    | none => m) []

/-- handleRunTests (pallas-sdk.ts lines 244-254): take the current
catalog (empty when none is loaded), filter the selections through it,
dispatch one call per surviving entry carrying the entry's stored
arguments, and hand the same filtered map to storeTests for the history
append. -/
def handleRunTests (data : List TestSelection) (testCases : Option TestCaseMap) :
    List (Str × JSValue) × TestCaseMap :=
  let available := testCases.getD []
  let filtered := filterTestCases data available
  (filtered.map (fun e => (e.1, e.2.args)), filtered)

/-- The catalog row of the enablement scenario:
github,search_repositories with a JSON-encoded query object. -/
def githubRow : CSVRow :=
  { server := some ("github".toList)
    tool := some ("search_repositories".toList)
    request_args := some ("\x7b\"query\":\"x\"\x7d".toList) }

/-- A JSON parse collaborator for the scenario rows: decodes the
query object of githubRow and rejects everything else. -/
def scenarioParse (s : Str) : Option JSValue :=
  if s = "\x7b\"query\":\"x\"\x7d".toList then some (JSValue.str ("x".toList))
  else none

/-- The Test Catalog the scenario row builds. -/
def githubCatalog : TestCaseMap :=
  match generateMap scenarioParse [githubRow] [] with
  | .ok m => m
  | .error _ => []

/-- Whether a tool's dispatched invocation rejects under a given settled
outcome assignment. -/
def outcomeIsError (outcome : Str → Except Str JSValue) (toolName : Str) : Bool :=
  match outcome toolName with
  | .error _ => true
  | .ok _ => false


theorem splitOnDash_ne_nil (s : Str) : splitOnDash s ≠ [] := by
  cases s with
  | nil => simp [splitOnDash]
  | cons c rest =>
    by_cases hc : c = '-'
    · subst hc
      simp [splitOnDash]
    · simp [splitOnDash, hc]

theorem splitOnDash_dash_free (s : Str) :
    ∀ chunk ∈ splitOnDash s, '-' ∉ chunk := by
  induction s with
  | nil => simp [splitOnDash]
  | cons c rest ih =>
    by_cases hc : c = '-'
    · subst hc
      simp only [splitOnDash]
      intro chunk hmem
      rcases List.mem_cons.mp hmem with rfl | h2
      · simp
      · exact ih chunk h2
    · simp only [splitOnDash, hc]
      intro d hd
      cases h2 : splitOnDash rest with
      | nil => exact absurd h2 (splitOnDash_ne_nil rest)
      | cons chunk chunks =>
        rw [h2] at hd
        simp only [List.headD_cons, List.tail_cons] at hd
        rcases List.mem_cons.mp hd with rfl | hd2
        · intro hmemd
          rcases List.mem_cons.mp hmemd with h3 | h3
          · exact hc h3.symm
          · exact ih chunk (h2 ▸ List.mem_cons_self _ _) h3
        · exact ih d (h2 ▸ List.mem_cons_of_mem _ hd2)

theorem joinDash_single (x : Str) : joinDash [x] = x := by
  simp [joinDash, List.intercalate]

theorem joinDash_cons (x : Str) (xs : List Str) (h : xs ≠ []) :
    joinDash (x :: xs) = x ++ '-' :: joinDash xs := by
  cases xs with
  | nil => exact absurd rfl h
  | cons y ys => simp [joinDash, List.intercalate, List.intersperse]

theorem joinDash_splitOnDash (s : Str) : joinDash (splitOnDash s) = s := by
  induction s with
  | nil => simp [splitOnDash, joinDash, List.intercalate]
  | cons c rest ih =>
    by_cases hc : c = '-'
    · subst hc
      simp only [splitOnDash]
      rw [joinDash_cons _ _ (splitOnDash_ne_nil rest), ih]
      rfl
    · simp only [splitOnDash, hc, if_false]
      cases h2 : splitOnDash rest with
      | nil => exact absurd h2 (splitOnDash_ne_nil rest)
      | cons chunk chunks =>
        rw [h2] at ih
        simp only [List.headD_cons, List.tail_cons]
        cases chunks with
        | nil =>
          rw [joinDash_single] at ih ⊢
          rw [ih]
        | cons d ds =>
          rw [joinDash_cons _ _ (by simp)] at ih
          rw [joinDash_cons _ _ (by simp), ← ih]
          rfl

theorem convert_name (p : PallasTool) :
    (convertStoredToolToPallasTool p.getToStorage).name = p.name := by
  have hmem : '-' ∈ p.name := by
    simp [PallasTool.name]
  have hjoin := joinDash_splitOnDash p.name
  have hfree := splitOnDash_dash_free p.name
  show (splitOnDash p.name).headD [] ++ '-' :: joinDash (splitOnDash p.name).tail
      = p.name
  cases hsplit : splitOnDash p.name with
  | nil => exact absurd hsplit (splitOnDash_ne_nil _)
  | cons chunk chunks =>
    have htl : chunks ≠ [] := by
      intro hnil
      subst hnil
      rw [hsplit, joinDash_single] at hjoin
      rw [hsplit] at hfree
      exact hfree chunk (List.mem_cons_self _ _) (hjoin ▸ hmem)
    rw [hsplit] at hjoin
    simp only [List.headD_cons, List.tail_cons]
    rw [← joinDash_cons _ _ htl, hjoin]

theorem convert_args (p : PallasTool) :
    (convertStoredToolToPallasTool p.getToStorage).args = p.args := rfl


theorem foldl_storeLastTests (batches : List TestCaseMap) :
    ∀ h : List (List StoredTestTool), h.length + batches.length ≤ 3 →
      batches.foldl storeLastTests h = h ++ batches.map formatSelectedForStorage := by
  induction batches with
  | nil => intro h _; simp
  | cons m ms ih =>
    intro h hlen
    simp only [List.length_cons] at hlen
    simp only [List.foldl_cons, List.map_cons]
    have hpush : storeLastTests h m = h ++ [formatSelectedForStorage m] := by
      simp only [storeLastTests]
      rw [if_neg]
      simp only [List.length_append, List.length_cons, List.length_nil]
      omega
    rw [hpush, ih (h ++ [formatSelectedForStorage m])
      (by simp only [List.length_append, List.length_cons, List.length_nil]; omega)]
    simp

theorem persistedShape_id (h : List (List StoredTestTool)) :
    persistedShape h = h := by
  simp only [persistedShape]
  have hfun : (fun tool : StoredTestTool =>
      ({ name := tool.name, arguments := tool.arguments } : StoredTestTool)) = id :=
    funext fun t => rfl
  simp [hfun]

/-- C4: appending a batch to a history log of length at most 3 keeps the
length at most 3 and puts the new entry last; appending to a log already
at the cap of 3 keeps exactly 3 entries, dropping the oldest and leaving
the relative order of the survivors unchanged. -/
theorem storeLastTests_cap (h : List (List StoredTestTool)) (m : TestCaseMap)
    (hlen : h.length ≤ 3) :
    (storeLastTests h m).length ≤ 3 ∧
    (storeLastTests h m).getLast? = some (formatSelectedForStorage m) ∧
    (h.length = 3 →
      storeLastTests h m = h.tail ++ [formatSelectedForStorage m] ∧
      (storeLastTests h m).length = 3) := by
  have hpushlen : (h ++ [formatSelectedForStorage m]).length = h.length + 1 := by
    simp
  simp only [storeLastTests]
  by_cases hfull : h.length = 3
  · rw [if_pos (by rw [hpushlen]; omega)]
    cases h with
    | nil => simp at hfull
    | cons x hs =>
      have hhs : hs.length = 2 := by
        simp only [List.length_cons] at hfull
        omega
      refine ⟨?_, ?_, fun _ => ⟨?_, ?_⟩⟩
      · simp [hhs]
      · simp [List.getLast?_concat]
      · simp
      · simp [hhs]
  · rw [if_neg (by rw [hpushlen]; omega)]
    refine ⟨?_, ?_, fun hc => absurd hc hfull⟩
    · rw [hpushlen]; omega
    · simp [List.getLast?_concat]

theorem storeLastTests_cap_witness :
    ([[], [], []] : List (List StoredTestTool)).length ≤ 3 ∧
    ((storeLastTests [[], [], []] []).length ≤ 3 ∧
      (storeLastTests [[], [], []] []).getLast? = some (formatSelectedForStorage []) ∧
      (([[], [], []] : List (List StoredTestTool)).length = 3 →
        storeLastTests [[], [], []] [] =
          ([[], [], []] : List (List StoredTestTool)).tail ++ [formatSelectedForStorage []] ∧
        (storeLastTests [[], [], []] []).length = 3)) :=
  ⟨by decide, storeLastTests_cap [[], [], []] [] (by decide)⟩

/-- C5: a history log of at most the cap of 3 batches, serialized by
storeLastTests into the persisted array-of-arrays shape and read back by
loadSaved followed by getHistoryTests (which rebuilds each PallasTool
from its stored name and arguments), reproduces the same ordered
sequence of (name, arguments) pairs. -/
theorem history_roundtrip (batches : List TestCaseMap)
    (hlen : batches.length ≤ 3) :
    (getHistoryTests (loadSavedStored
        (some (persistedShape (batches.foldl storeLastTests []))))).map
        (fun batch => batch.map (fun p => (p.name, p.args)))
      = batches.map (fun m => m.map (fun e => (e.2.name, e.2.args))) := by
  rw [foldl_storeLastTests batches [] (by simpa), persistedShape_id]
  simp only [loadSavedStored, Option.getD, List.nil_append]
  simp only [getHistoryTests, List.map_map]
  refine List.map_congr_left fun m _ => ?_
  simp only [Function.comp, formatSelectedForStorage, List.map_map]
  refine List.map_congr_left fun e _ => ?_
  simp only [Function.comp]
  rw [convert_name, convert_args]

theorem history_roundtrip_witness :
    ([[(("s-t".toList : Str),
        ({ server := "s".toList, toolName := "t".toList, args := JSValue.null }
          : PallasTool))]] : List TestCaseMap).length ≤ 3 ∧
    (getHistoryTests (loadSavedStored
        (some (persistedShape
          (([[(("s-t".toList : Str),
              ({ server := "s".toList, toolName := "t".toList, args := JSValue.null }
                : PallasTool))]] : List TestCaseMap).foldl storeLastTests []))))).map
        (fun batch => batch.map (fun p => (p.name, p.args)))
      = ([[(("s-t".toList : Str),
          ({ server := "s".toList, toolName := "t".toList, args := JSValue.null }
            : PallasTool))]] : List TestCaseMap).map
          (fun m => m.map (fun e => (e.2.name, e.2.args))) :=
  ⟨by decide, history_roundtrip _ (by decide)⟩

/-- C9: when the persisted value is missing, empty, not valid JSON (the
parse collaborator rejects it, as it does the literal string not json),
or decodes to a falsy value, loadSaved yields the empty history log; the
function is total, modelling that every decode failure is caught and
never surfaced to the caller. -/
theorem loadSaved_malformed (parse : Str → Option JSValue)
    (coerce : JSValue → Str) (interp : JSValue → List (List StoredTestTool))
    (raw : Option Str)
    (hbad : ∀ s, raw = some s →
      s = [] ∨ parse s = none ∨ ∃ v, parse s = some v ∧ v.truthy = false) :
    StorageManager.loadSaved parse coerce interp raw = [] := by
  cases raw with
  | none => rfl
  | some s =>
    rcases hbad s rfl with hempty | hnone | ⟨v, hv, hfalsy⟩
    · simp [StorageManager.loadSaved, LocalStorage.getItem, hempty]
    · by_cases hempty : s = []
      · simp [StorageManager.loadSaved, LocalStorage.getItem, hempty]
      · simp [StorageManager.loadSaved, LocalStorage.getItem, hempty, hnone]
    · by_cases hempty : s = []
      · simp [StorageManager.loadSaved, LocalStorage.getItem, hempty]
      · simp [StorageManager.loadSaved, LocalStorage.getItem, hempty, hv, hfalsy]

theorem loadSaved_malformed_witness :
    (∀ s, (some ("not json".toList) : Option Str) = some s →
      s = [] ∨ (fun _ : Str => (none : Option JSValue)) s = none ∨
        ∃ v, (fun _ : Str => (none : Option JSValue)) s = some v ∧ v.truthy = false) ∧
    StorageManager.loadSaved (fun _ => none) (fun _ => []) (fun _ => [])
      (some ("not json".toList)) = [] :=
  ⟨fun _ _ => Or.inr (Or.inl rfl),
    loadSaved_malformed (fun _ => none) (fun _ => []) (fun _ => [])
      (some ("not json".toList)) (fun _ _ => Or.inr (Or.inl rfl))⟩

theorem isTestEnabled_eq_or (m : TestCaseMap) (c t : Str) :
    isTestEnabled (some m) c t =
      (mapHasB m t || mapHasB m (c ++ '-' :: t) ||
        m.any (fun e => e.2.isSameTool t || e.2.isSameTool (c ++ '-' :: t))) := by
  simp only [isTestEnabled]
  by_cases h1 : mapHasB m t
  · simp [h1]
  · by_cases h2 : mapHasB m (c ++ '-' :: t)
    · simp [h1, h2]
    · simp [h1, h2]

/-- C3: isTestEnabled returns true exactly when one of the three match
paths succeeds — the bare item name is a catalog key, the composed
category-dash-item name is a catalog key, or some entry's fullName
equals either form; with no catalog nothing is enabled; and for the
catalog built from the row github,search_repositories the item
github-search_repositories is enabled under any category (its composed
key is a catalog key, matched whichever path fires first), as is the
partitioned form with category github and item search_repositories. -/
theorem isTestEnabled_spec :
    (∀ (m : TestCaseMap) (c t : Str),
      isTestEnabled (some m) c t = true ↔
        (mapHasB m t = true ∨ mapHasB m (c ++ '-' :: t) = true ∨
          ∃ e ∈ m, e.2.name = t ∨ e.2.name = c ++ '-' :: t)) ∧
    (∀ c t, isTestEnabled none c t = false) ∧
    (∀ c, isTestEnabled (some githubCatalog) c
      ("github-search_repositories".toList) = true) ∧
    isTestEnabled (some githubCatalog) ("github".toList)
      ("search_repositories".toList) = true := by
  refine ⟨?_, fun _ _ => rfl, ?_, by decide⟩
  · intro m c t
    rw [isTestEnabled_eq_or]
    simp only [Bool.or_eq_true, List.any_eq_true, PallasTool.isSameTool,
      Bool.or_eq_true, decide_eq_true_eq]
    constructor
    · rintro ((h | h) | ⟨e, he, h | h⟩)
      · exact Or.inl h
      · exact Or.inr (Or.inl h)
      · exact Or.inr (Or.inr ⟨e, he, Or.inl h.symm⟩)
      · exact Or.inr (Or.inr ⟨e, he, Or.inr h.symm⟩)
    · rintro (h | h | ⟨e, he, h | h⟩)
      · exact Or.inl (Or.inl h)
      · exact Or.inl (Or.inr h)
      · exact Or.inr ⟨e, he, Or.inl h.symm⟩
      · exact Or.inr ⟨e, he, Or.inr h.symm⟩
  · intro c
    simp only [isTestEnabled]
    rw [if_pos]
    decide

theorem lookupA_cons (e : Str × PallasTool) (m : TestCaseMap) (k : Str) :
    lookupA (e :: m) k = if e.1 = k then some e.2 else lookupA m k := by
  by_cases h : e.1 = k <;> simp [lookupA, List.find?_cons, h]

theorem mapHasB_eq_isSome (m : TestCaseMap) (k : Str) :
    mapHasB m k = (lookupA m k).isSome := by
  induction m with
  | nil => rfl
  | cons e es ih =>
    rw [lookupA_cons]
    by_cases h : e.1 = k <;> simp [mapHasB, h] <;> simpa [mapHasB] using ih


theorem lookupA_map_upd_ne (m : TestCaseMap) (k : Str) (v : PallasTool)
    (k2 : Str) (hne : k2 ≠ k) :
    lookupA (m.map (fun e => if e.1 = k then (k, v) else e)) k2 = lookupA m k2 := by
  induction m with
  | nil => rfl
  | cons e es ih =>
    simp only [List.map_cons]
    rw [lookupA_cons, lookupA_cons]
    by_cases he : e.1 = k
    · rw [if_pos he]
      rw [if_neg (show ((k, v) : Str × PallasTool).1 ≠ k2 from fun hx => hne hx.symm)]
      rw [if_neg (fun hx => hne (he ▸ hx).symm)]
      exact ih
    · rw [if_neg he]
      by_cases he2 : e.1 = k2
      · rw [if_pos he2, if_pos he2]
      · rw [if_neg he2, if_neg he2]
        exact ih



theorem lookupA_map_upd_eq (m : TestCaseMap) (k : Str) (v : PallasTool)
    (h : m.any (fun e => e.1 = k) = true) :
    lookupA (m.map (fun e => if e.1 = k then (k, v) else e)) k = some v := by
  induction m with
  | nil => simp at h
  | cons e es ih =>
    simp only [List.map_cons]
    rw [lookupA_cons]
    by_cases he : e.1 = k
    · simp [he]
    · simp only [if_neg he]
      refine ih ?_
      rw [List.any_cons, Bool.or_eq_true] at h
      rcases h with h1 | h2
      · exact absurd (of_decide_eq_true h1) he
      · exact h2

theorem lookupA_append_single (m : TestCaseMap) (k : Str) (v : PallasTool)
    (k2 : Str) (h : m.any (fun e => e.1 = k) = false) :
    lookupA (m ++ [(k, v)]) k2 = if k2 = k then some v else lookupA m k2 := by
  induction m with
  | nil =>
    rw [List.nil_append, lookupA_cons]
    by_cases hk : k2 = k
    · simp [hk]
    · rw [if_neg (show ¬(((k, v) : Str × PallasTool).1 = k2) from fun hx => hk hx.symm),
        if_neg hk]
  | cons e es ih =>
    rw [List.any_cons, Bool.or_eq_false_iff] at h
    rw [List.cons_append, lookupA_cons, lookupA_cons]
    by_cases he : e.1 = k2
    · have hne : e.1 ≠ k := by simpa using h.1
      have hk : ¬ k2 = k := fun hx => hne (hx ▸ he)
      rw [if_pos he, if_neg hk, if_pos he]
    · rw [if_neg he, if_neg he, ih h.2]

theorem lookupA_mapSet (m : TestCaseMap) (k : Str) (v : PallasTool) (k2 : Str) :
    lookupA (mapSet m k v) k2 = if k2 = k then some v else lookupA m k2 := by
  simp only [mapSet]
  by_cases h : m.any (fun e => e.1 = k) = true
  · rw [if_pos h]
    by_cases hk : k2 = k
    · subst hk
      rw [lookupA_map_upd_eq m k2 v h, if_pos rfl]
    · rw [if_neg hk, lookupA_map_upd_ne m k v k2 hk]
  · rw [if_neg h, lookupA_append_single m k v k2 (Bool.not_eq_true _ ▸ h)]

theorem mapHasB_mapSet (m : TestCaseMap) (k : Str) (v : PallasTool) (k2 : Str) :
    mapHasB (mapSet m k v) k2 = (decide (k2 = k) || mapHasB m k2) := by
  rw [mapHasB_eq_isSome, lookupA_mapSet, mapHasB_eq_isSome]
  by_cases hk : k2 = k
  · rw [if_pos hk, decide_eq_true hk, Bool.true_or]
    rfl
  · rw [if_neg hk, decide_eq_false hk, Bool.false_or]

theorem fromNotionCSV_error_of_malformed (parse : Str → Option JSValue)
    (row : CSVRow) (h : rowMalformed parse row = true) :
    ∃ e, PallasTool.fromNotionCSV parse row = .error e := by
  simp only [PallasTool.fromNotionCSV]
  by_cases h1 : falsyField row.server = true
  · rw [if_pos h1]; exact ⟨_, rfl⟩
  · rw [if_neg h1]
    by_cases h2 : falsyField row.tool = true
    · rw [if_pos h2]; exact ⟨_, rfl⟩
    · rw [if_neg h2]
      by_cases h3 : falsyField row.request_args = true
      · rw [if_pos h3]; exact ⟨_, rfl⟩
      · rw [if_neg h3]
        cases hp : parse (row.request_args.getD []) with
        | none => exact ⟨_, rfl⟩
        | some v =>
          exfalso
          simp only [rowMalformed, hp, Bool.or_eq_true, Option.isNone_some] at h
          rcases h with ((ha | hb) | hc) | hd
          · exact h1 ha
          · exact h2 hb
          · exact h3 hc
          · exact Bool.false_ne_true hd

theorem fromNotionCSV_ok_of_wellformed (parse : Str → Option JSValue)
    (row : CSVRow) (h : rowMalformed parse row = false) :
    ∃ t, PallasTool.fromNotionCSV parse row = .ok t ∧ t.name = rowFullName row := by
  simp only [rowMalformed, Bool.or_eq_false_iff] at h
  obtain ⟨⟨⟨h1, h2⟩, h3⟩, h4⟩ := h
  simp only [PallasTool.fromNotionCSV]
  rw [if_neg (by simp [h1]), if_neg (by simp [h2]), if_neg (by simp [h3])]
  cases hp : parse (row.request_args.getD []) with
  | none => rw [hp] at h4; simp at h4
  | some v => exact ⟨_, rfl, rfl⟩

theorem generateMap_error_of_malformed (parse : Str → Option JSValue) :
    ∀ (rows : List CSVRow) (acc : TestCaseMap),
      (∃ row ∈ rows, rowMalformed parse row = true) →
      ∃ e, generateMap parse rows acc = .error e := by
  intro rows
  induction rows with
  | nil => rintro acc ⟨row, hmem, _⟩; simp at hmem
  | cons row rest ih =>
    rintro acc ⟨r, hmem, hmal⟩
    cases hm : rowMalformed parse row with
    | true =>
      obtain ⟨e, he⟩ := fromNotionCSV_error_of_malformed parse row hm
      exact ⟨e, by simp only [generateMap, he]⟩
    | false =>
      obtain ⟨t, ht, _⟩ := fromNotionCSV_ok_of_wellformed parse row hm
      rcases List.mem_cons.mp hmem with rfl | hrest
      · exact absurd hmal (by rw [hm]; exact Bool.false_ne_true)
      · obtain ⟨e, he⟩ := ih (mapSet acc t.name t) ⟨r, hrest, hmal⟩
        exact ⟨e, by simp only [generateMap, ht, he]⟩

theorem generateMap_ok_of_wellformed (parse : Str → Option JSValue) :
    ∀ (rows : List CSVRow) (acc : TestCaseMap),
      (∀ row ∈ rows, rowMalformed parse row = false) →
      ∃ m, generateMap parse rows acc = .ok m ∧
        (∀ k, mapHasB acc k = true → mapHasB m k = true) ∧
        (∀ row ∈ rows, mapHasB m (rowFullName row) = true) := by
  intro rows
  induction rows with
  | nil =>
    intro acc _
    exact ⟨acc, rfl, fun k hk => hk, by simp⟩
  | cons row rest ih =>
    intro acc hwf
    obtain ⟨t, ht, hname⟩ :=
      fromNotionCSV_ok_of_wellformed parse row (hwf row (List.mem_cons_self _ _))
    obtain ⟨m, hm, hmono, hall⟩ := ih (mapSet acc t.name t)
      (fun r hr => hwf r (List.mem_cons_of_mem _ hr))
    refine ⟨m, by simp only [generateMap, ht, hm], fun k hk => ?_, ?_⟩
    · refine hmono k ?_
      rw [mapHasB_mapSet]
      rw [hk, Bool.or_true]
    · intro r hr
      rcases List.mem_cons.mp hr with rfl | hrest
      · refine hmono (rowFullName r) ?_
        rw [mapHasB_mapSet, hname, decide_eq_true rfl, Bool.true_or]
      · exact hall r hrest

/-- C1: loadTestParameters is atomic — if any row is missing server,
tool, or request_args, or its request_args is not valid JSON, the build
surfaces an error and the previously held testCases map is unchanged (no
partial catalog); if every row is well-formed the build succeeds with no
error and installs a map containing an entry for every row's composed
fullName. -/
theorem loadTestParameters_atomic (parse : Str → Option JSValue)
    (rows : List CSVRow) (prev : Option TestCaseMap) :
    ((∃ row ∈ rows, rowMalformed parse row = true) →
      (loadTestParameters parse rows prev).1 = prev ∧
      (loadTestParameters parse rows prev).2.isSome = true) ∧
    ((∀ row ∈ rows, rowMalformed parse row = false) →
      (loadTestParameters parse rows prev).2 = none ∧
      ∃ m, (loadTestParameters parse rows prev).1 = some m ∧
        ∀ row ∈ rows, mapHasB m (rowFullName row) = true) := by
  constructor
  · intro hbad
    obtain ⟨e, he⟩ := generateMap_error_of_malformed parse rows [] hbad
    simp [loadTestParameters, he]
  · intro hgood
    obtain ⟨m, hm, _, hall⟩ := generateMap_ok_of_wellformed parse rows [] hgood
    refine ⟨by simp [loadTestParameters, hm], m, by simp [loadTestParameters, hm], hall⟩

theorem loadTestParameters_atomic_witness :
    ((loadTestParameters scenarioParse
        [{ server := some ("github".toList), tool := none,
           request_args := some ("\x7b\"query\":\"x\"\x7d".toList) }]
        (some githubCatalog)).1 = some githubCatalog ∧
      (loadTestParameters scenarioParse
        [{ server := some ("github".toList), tool := none,
           request_args := some ("\x7b\"query\":\"x\"\x7d".toList) }]
        (some githubCatalog)).2.isSome = true) ∧
    ((loadTestParameters scenarioParse [githubRow] none).2 = none ∧
      ∃ m, (loadTestParameters scenarioParse [githubRow] none).1 = some m ∧
        ∀ row ∈ [githubRow], mapHasB m (rowFullName row) = true) :=
  ⟨(loadTestParameters_atomic scenarioParse
      [{ server := some ("github".toList), tool := none,
         request_args := some ("\x7b\"query\":\"x\"\x7d".toList) }]
      (some githubCatalog)).1
    ⟨_, List.mem_cons_self _ _, by decide⟩,
   (loadTestParameters_atomic scenarioParse [githubRow] none).2
    (by decide)⟩

theorem settleCall_status_error (outcome : Str → Except Str JSValue) (n : Str) :
    decide ((settleCall outcome n).status = CallStatus.error) = outcomeIsError outcome n := by
  cases h : outcome n <;> simp [settleCall, h, outcomeIsError]

theorem settleCall_status_success (outcome : Str → Except Str JSValue) (n : Str) :
    decide ((settleCall outcome n).status = CallStatus.success) = !(outcomeIsError outcome n) := by
  cases h : outcome n <;> simp [settleCall, h, outcomeIsError]

/-- C7: dispatching a batch of 3 selected tools of which exactly one
rejects leaves, once every call has settled, exactly one ExecutionRecord
with status error carrying the rejection message, two with status
success carrying the resolved values, and the isRunning flag false. -/
theorem runTests_one_rejection (selected : List Str)
    (outcome : Str → Except Str JSValue) (prev : List TestResult)
    (hlen : selected.length = 3)
    (herr : selected.countP (outcomeIsError outcome) = 1) :
    (runTests true selected outcome prev).1 = false ∧
    (runTests true selected outcome prev).2.length = 3 ∧
    (runTests true selected outcome prev).2.countP
      (fun r => decide (r.status = CallStatus.error)) = 1 ∧
    (runTests true selected outcome prev).2.countP
      (fun r => decide (r.status = CallStatus.success)) = 2 ∧
    ∀ r ∈ (runTests true selected outcome prev).2,
      (r.status = CallStatus.error →
        ∃ e, outcome r.toolName = .error e ∧ r.error = some e) ∧
      (r.status = CallStatus.success →
        ∃ v, outcome r.toolName = .ok v ∧ r.result = some v) := by
  have hne : selected.isEmpty = false := by
    cases selected <;> simp_all
  have hrun : runTests true selected outcome prev =
      (false, selected.map (settleCall outcome)) := by
    simp [runTests, hne]
  rw [hrun]
  have hcerr : (selected.map (settleCall outcome)).countP
      (fun r => decide (r.status = CallStatus.error)) = 1 := by
    rw [List.countP_map]
    rw [show ((fun r => decide (r.status = CallStatus.error)) ∘ settleCall outcome)
        = outcomeIsError outcome from funext fun n => settleCall_status_error outcome n]
    exact herr
  have hcsucc : (selected.map (settleCall outcome)).countP
      (fun r => decide (r.status = CallStatus.success)) = 2 := by
    rw [List.countP_map]
    rw [show ((fun r => decide (r.status = CallStatus.success)) ∘ settleCall outcome)
        = (fun n => !(outcomeIsError outcome n)) from
        funext fun n => settleCall_status_success outcome n]
    have htot := List.length_eq_countP_add_countP (outcomeIsError outcome) selected
    rw [show (fun n => !outcomeIsError outcome n)
        = (fun a => decide (¬ outcomeIsError outcome a = true)) from
        funext fun a => by cases outcomeIsError outcome a <;> simp]
    omega
  refine ⟨rfl, by simpa using hlen, hcerr, hcsucc, ?_⟩
  intro r hr
  obtain ⟨n, _, rfl⟩ := List.mem_map.mp hr
  cases h : outcome n with
  | ok v =>
    refine ⟨fun hst => ?_, fun _ => ⟨v, by simpa [settleCall, h], by simp [settleCall, h]⟩⟩
    rw [settleCall, h] at hst
    simp at hst
  | error e =>
    refine ⟨fun _ => ⟨e, by simpa [settleCall, h], by simp [settleCall, h]⟩, fun hst => ?_⟩
    rw [settleCall, h] at hst
    simp at hst

theorem runTests_one_rejection_witness :
    (["a".toList, "b".toList, "c".toList].length = 3 ∧
      (["a".toList, "b".toList, "c".toList].countP
        (outcomeIsError (fun n =>
          if n = "b".toList then Except.error ("boom".toList)
          else Except.ok JSValue.null)) = 1)) ∧
    ((runTests true ["a".toList, "b".toList, "c".toList]
        (fun n => if n = "b".toList then Except.error ("boom".toList)
          else Except.ok JSValue.null) []).1 = false ∧
      (runTests true ["a".toList, "b".toList, "c".toList]
        (fun n => if n = "b".toList then Except.error ("boom".toList)
          else Except.ok JSValue.null) []).2.length = 3 ∧
      (runTests true ["a".toList, "b".toList, "c".toList]
        (fun n => if n = "b".toList then Except.error ("boom".toList)
          else Except.ok JSValue.null) []).2.countP
        (fun r => decide (r.status = CallStatus.error)) = 1 ∧
      (runTests true ["a".toList, "b".toList, "c".toList]
        (fun n => if n = "b".toList then Except.error ("boom".toList)
          else Except.ok JSValue.null) []).2.countP
        (fun r => decide (r.status = CallStatus.success)) = 2 ∧
      ∀ r ∈ (runTests true ["a".toList, "b".toList, "c".toList]
        (fun n => if n = "b".toList then Except.error ("boom".toList)
          else Except.ok JSValue.null) []).2,
        (r.status = CallStatus.error →
          ∃ e, (fun n => if n = "b".toList then Except.error ("boom".toList)
            else Except.ok JSValue.null) r.toolName = .error e ∧ r.error = some e) ∧
        (r.status = CallStatus.success →
          ∃ v, (fun n => if n = "b".toList then Except.error ("boom".toList)
            else Except.ok JSValue.null) r.toolName = .ok v ∧ r.result = some v)) :=
  ⟨⟨by decide, by decide⟩,
    runTests_one_rejection _ _ [] (by decide) (by decide)⟩

theorem mem_mapSet (m : TestCaseMap) (k : Str) (v : PallasTool)
    (e : Str × PallasTool) (h : e ∈ mapSet m k v) : e = (k, v) ∨ e ∈ m := by
  simp only [mapSet] at h
  by_cases hany : m.any (fun x => x.1 = k) = true
  · rw [if_pos hany] at h
    obtain ⟨x, hx, hfx⟩ := List.mem_map.mp h
    by_cases hxk : x.1 = k
    · rw [if_pos hxk] at hfx
      exact Or.inl hfx.symm
    · rw [if_neg hxk] at hfx
      exact Or.inr (hfx ▸ hx)
  · rw [if_neg hany] at h
    rcases List.mem_append.mp h with hm | hone
    · exact Or.inr hm
    · exact Or.inl (List.mem_singleton.mp hone)

theorem filterTestCases_lookup (available : TestCaseMap) (data : List TestSelection) :
    ∀ (acc : TestCaseMap) (k : Str),
      lookupA (data.foldl (fun m sel =>
        match lookupA available (composedKey sel) with
        | some tool => mapSet m (composedKey sel) tool
        | none => m) acc) k =
      if (∃ sel ∈ data, composedKey sel = k) ∧ (lookupA available k).isSome = true
      then lookupA available k else lookupA acc k := by
  induction data with
  | nil =>
    intro acc k
    rw [List.foldl_nil, if_neg]
    rintro ⟨⟨sel, hmem, _⟩, _⟩
    simp at hmem
  | cons sel rest ih =>
    intro acc k
    rw [List.foldl_cons]
    cases hl : lookupA available (composedKey sel) with
    | none =>
      rw [ih acc k]
      by_cases hk : composedKey sel = k
      · rw [if_neg, if_neg]
        · rintro ⟨_, hsome⟩
          rw [← hk, hl] at hsome
          simp at hsome
        · rintro ⟨_, hsome⟩
          rw [← hk, hl] at hsome
          simp at hsome
      · by_cases hcond : (∃ s ∈ rest, composedKey s = k) ∧
            (lookupA available k).isSome = true
        · rw [if_pos hcond, if_pos ⟨⟨hcond.1.choose,
            List.mem_cons_of_mem _ hcond.1.choose_spec.1, hcond.1.choose_spec.2⟩,
            hcond.2⟩]
        · rw [if_neg hcond, if_neg]
          rintro ⟨⟨s, hs, hsk⟩, hsome⟩
          rcases List.mem_cons.mp hs with rfl | hsrest
          · exact hk hsk
          · exact hcond ⟨⟨s, hsrest, hsk⟩, hsome⟩
    | some tool =>
      rw [ih (mapSet acc (composedKey sel) tool) k, lookupA_mapSet]
      by_cases hk : k = composedKey sel
      · have havail : lookupA available k = some tool := by rw [hk, hl]
        have hsome : (lookupA available k).isSome = true := by rw [havail]; rfl
        have hcons : (∃ s ∈ sel :: rest, composedKey s = k) ∧
            (lookupA available k).isSome = true :=
          ⟨⟨sel, List.mem_cons_self _ _, hk.symm⟩, hsome⟩
        by_cases hcond : (∃ s ∈ rest, composedKey s = k) ∧
            (lookupA available k).isSome = true
        · rw [if_pos hcond, if_pos hcons]
        · rw [if_neg hcond, if_pos hcons, if_pos hk, havail]
      · rw [if_neg hk]
        by_cases hcond : (∃ s ∈ rest, composedKey s = k) ∧
            (lookupA available k).isSome = true
        · have hcons : (∃ s ∈ sel :: rest, composedKey s = k) ∧
              (lookupA available k).isSome = true :=
            ⟨⟨hcond.1.choose, List.mem_cons_of_mem _ hcond.1.choose_spec.1,
              hcond.1.choose_spec.2⟩, hcond.2⟩
          rw [if_pos hcond, if_pos hcons]
        · rw [if_neg hcond, if_neg]
          rintro ⟨⟨s, hs, hsk⟩, hsome⟩
          rcases List.mem_cons.mp hs with rfl | hsrest
          · exact hk hsk.symm
          · exact hcond ⟨⟨s, hsrest, hsk⟩, hsome⟩

theorem filterTestCases_mem (available : TestCaseMap) (data : List TestSelection) :
    ∀ (acc : TestCaseMap) (e : Str × PallasTool),
      e ∈ data.foldl (fun m sel =>
        match lookupA available (composedKey sel) with
        | some tool => mapSet m (composedKey sel) tool
        | none => m) acc →
      e ∈ acc ∨ lookupA available e.1 = some e.2 := by
  induction data with
  | nil => intro acc e he; exact Or.inl he
  | cons sel rest ih =>
    intro acc e he
    rw [List.foldl_cons] at he
    cases hl : lookupA available (composedKey sel) with
    | none =>
      rw [hl] at he
      exact ih acc e he
    | some tool =>
      rw [hl] at he
      rcases ih (mapSet acc (composedKey sel) tool) e he with hacc | havail
      · rcases mem_mapSet _ _ _ _ hacc with rfl | hmem
        · exact Or.inr (by simpa using hl)
        · exact Or.inl hmem
      · exact Or.inr havail

/-- C10: the batch the run handler builds contains exactly the
selections whose composed category-dash-test key is a catalog key, each
bound to that catalog entry; every dispatched call carries the catalog
entry's stored arguments; the same filtered map is what is handed to the
history store; and selections without a catalog match are dropped. -/
theorem handleRunTests_spec (data : List TestSelection)
    (testCases : Option TestCaseMap) :
    (∀ k, mapHasB (handleRunTests data testCases).2 k = true ↔
      ((∃ sel ∈ data, composedKey sel = k) ∧
        mapHasB (testCases.getD []) k = true)) ∧
    (∀ k tool, lookupA (handleRunTests data testCases).2 k = some tool →
      lookupA (testCases.getD []) k = some tool) ∧
    (∀ c ∈ (handleRunTests data testCases).1,
      ∃ tool, lookupA (testCases.getD []) c.1 = some tool ∧ c.2 = tool.args) ∧
    (handleRunTests data testCases).2 = filterTestCases data (testCases.getD []) := by
  have hlook : ∀ k, lookupA (filterTestCases data (testCases.getD [])) k =
      if (∃ sel ∈ data, composedKey sel = k) ∧
        (lookupA (testCases.getD []) k).isSome = true
      then lookupA (testCases.getD []) k else lookupA [] k :=
    filterTestCases_lookup (testCases.getD []) data []
  have hsnd : (handleRunTests data testCases).2 =
      filterTestCases data (testCases.getD []) := rfl
  refine ⟨?_, ?_, ?_, hsnd⟩
  · intro k
    rw [hsnd, mapHasB_eq_isSome, mapHasB_eq_isSome, hlook k]
    by_cases hcond : (∃ sel ∈ data, composedKey sel = k) ∧
        (lookupA (testCases.getD []) k).isSome = true
    · rw [if_pos hcond]
      exact ⟨fun _ => hcond, fun _ => hcond.2⟩
    · rw [if_neg hcond]
      constructor
      · intro hsome
        simp [lookupA] at hsome
      · intro hc
        exact absurd ⟨hc.1, hc.2⟩ hcond
  · intro k tool htool
    rw [hsnd, hlook k] at htool
    by_cases hcond : (∃ sel ∈ data, composedKey sel = k) ∧
        (lookupA (testCases.getD []) k).isSome = true
    · rw [if_pos hcond] at htool
      exact htool
    · rw [if_neg hcond] at htool
      simp [lookupA] at htool
  · intro c hc
    obtain ⟨e, he, rfl⟩ := List.mem_map.mp hc
    rcases filterTestCases_mem (testCases.getD []) data [] e he with habs | hgood
    · simp at habs
    · exact ⟨e.2, hgood, rfl⟩

theorem handleRunTests_spec_witness :
    mapHasB (handleRunTests
      [{ category := "github".toList, test := "search_repositories".toList }]
      (some githubCatalog)).2 ("github-search_repositories".toList) = true ∧
    mapHasB (handleRunTests
      [{ category := "github".toList, test := "bad".toList }]
      (some githubCatalog)).2 ("github-bad".toList) = false :=
  ⟨((handleRunTests_spec
      [{ category := "github".toList, test := "search_repositories".toList }]
      (some githubCatalog)).1 ("github-search_repositories".toList)).mpr
    ⟨⟨_, List.mem_cons_self _ _, by decide⟩, by decide⟩,
   by
    have h := ((handleRunTests_spec
      [{ category := "github".toList, test := "bad".toList }]
      (some githubCatalog)).1 ("github-bad".toList))
    by_cases hb : mapHasB (handleRunTests
      [{ category := "github".toList, test := "bad".toList }]
      (some githubCatalog)).2 ("github-bad".toList) = true
    · exact absurd (h.mp hb).2 (by decide)
    · exact Bool.not_eq_true _ ▸ hb⟩

theorem isTestEnabled_spec_witness :
    isTestEnabled (some githubCatalog) ("github".toList)
      ("search_repositories".toList) = true :=
  isTestEnabled_spec.2.2.2

theorem filter_map_setval (P : Str → Bool) (b : Bool) (items : ItemsMap) :
    (items.map (fun e => if P e.1 then (e.1, b) else e)).filter (fun e => P e.1)
      = (items.filter (fun e => P e.1)).map (fun e => (e.1, b)) := by
  induction items with
  | nil => rfl
  | cons e es ih =>
    simp only [List.map_cons]
    by_cases hp : P e.1
    · rw [if_pos hp]
      rw [List.filter_cons_of_pos (by simpa using hp),
        List.filter_cons_of_pos (by simpa using hp)]
      simp only [List.map_cons]
      rw [ih]
    · rw [if_neg hp]
      rw [List.filter_cons_of_neg (by simpa using hp),
        List.filter_cons_of_neg (by simpa using hp), ih]

theorem map_setval_setval (P : Str → Bool) (b c : Bool) (items : ItemsMap) :
    (items.map (fun e => if P e.1 then (e.1, b) else e)).map
        (fun e => if P e.1 then (e.1, c) else e)
      = items.map (fun e => if P e.1 then (e.1, c) else e) := by
  rw [List.map_map]
  refine List.map_congr_left fun e _ => ?_
  by_cases hp : P e.1
  · simp [Function.comp, hp]
  · simp [Function.comp, hp]

theorem map_setval_id (P : Str → Bool) (b : Bool) (items : ItemsMap)
    (h : ∀ e ∈ items, P e.1 = true → e.2 = b) :
    items.map (fun e => if P e.1 then (e.1, b) else e) = items := by
  have hmap : items.map (fun e => if P e.1 then (e.1, b) else e) = items.map id := by
    refine List.map_congr_left fun e he => ?_
    by_cases hp : P e.1
    · rw [if_pos hp, ← h e he hp]
      rfl
    · rw [if_neg hp]
      rfl
  rw [hmap, List.map_id]

theorem all_const_snd (l : ItemsMap) (b : Bool) (h : l ≠ []) :
    (l.map (fun e => (e.1, b))).all (fun x => x.2) = b := by
  induction l with
  | nil => exact absurd rfl h
  | cons e es ih =>
    simp only [List.map_cons, List.all_cons]
    cases es with
    | nil => simp
    | cons d ds =>
      rw [ih (by simp)]
      exact Bool.and_self b

theorem selectCategory_char (tests : Option TestCaseMap) (cat : Str)
    (items : ItemsMap) :
    selectCategory tests cat items = items.map (fun e =>
      if isTestEnabled tests cat e.1 then
        (e.1, !((items.filter (fun x => isTestEnabled tests cat x.1)).all fun x => x.2))
      else e) := by
  simp only [selectCategory]
  have hval : decide
      (((items.filter (fun e => isTestEnabled tests cat e.1)).filter
          (fun e => e.2)).length ≠
        (items.filter (fun e => isTestEnabled tests cat e.1)).length) =
      !((items.filter (fun x => isTestEnabled tests cat x.1)).all fun x => x.2) := by
    by_cases hall : (items.filter (fun x => isTestEnabled tests cat x.1)).all
        (fun x => x.2) = true
    · rw [hall]
      refine decide_eq_false fun hne => hne ?_
      exact List.filter_length_eq_length.mpr fun a ha => List.all_eq_true.mp hall a ha
    · have hallf2 : (items.filter (fun x => isTestEnabled tests cat x.1)).all
          (fun x => x.2) = false := by
        cases h : (items.filter (fun x => isTestEnabled tests cat x.1)).all
            (fun x => x.2)
        · rfl
        · exact absurd h hall
      rw [hallf2]
      refine decide_eq_true fun heq => ?_
      exact hall (List.all_eq_true.mpr (List.filter_length_eq_length.mp heq))
  rw [hval]

/-- C6 (amended): a single select-category action sets every enabled
item of the category to true unless all enabled items were already true
(then to false) and leaves non-enabled items unchanged; and when the
enabled items were uniform before the action — all selected or all
unselected, including the case of no enabled items — applying the action
twice restores every item to its prior value.  (For a mixed prior state
double application does not restore it; see the counterexample.) -/
theorem selectCategory_toggle (tests : Option TestCaseMap) (cat : Str)
    (items : ItemsMap) :
    (selectCategory tests cat items = items.map (fun e =>
      if isTestEnabled tests cat e.1 then
        (e.1, !((items.filter (fun x => isTestEnabled tests cat x.1)).all fun x => x.2))
      else e)) ∧
    (((items.filter (fun x => isTestEnabled tests cat x.1)).all (fun x => x.2) = true ∨
      (items.filter (fun x => isTestEnabled tests cat x.1)).all (fun x => !x.2) = true) →
      selectCategory tests cat (selectCategory tests cat items) = items) := by
  refine ⟨selectCategory_char tests cat items, fun huni => ?_⟩
  by_cases hEnil : items.filter (fun x => isTestEnabled tests cat x.1) = []
  · have hnone : ∀ e ∈ items, ¬ (isTestEnabled tests cat e.1 = true) := by
      intro e he hp
      have hmem : e ∈ items.filter (fun x => isTestEnabled tests cat x.1) :=
        List.mem_filter.mpr ⟨he, by simpa using hp⟩
      rw [hEnil] at hmem
      simp at hmem
    have hid : selectCategory tests cat items = items := by
      rw [selectCategory_char]
      have hmap : items.map (fun e =>
          if isTestEnabled tests cat e.1 then
            (e.1, !((items.filter (fun x => isTestEnabled tests cat x.1)).all fun x => x.2))
          else e) = items.map id :=
        List.map_congr_left fun e he => by rw [if_neg (hnone e he)]; rfl
      rw [hmap, List.map_id]
    rw [hid, hid]
  · rcases huni with hall | hallf
    · have h1 : selectCategory tests cat items =
          items.map (fun e => if isTestEnabled tests cat e.1 then (e.1, false) else e) := by
        rw [selectCategory_char, hall]
        simp only [Bool.not_true]
      have hall1 : ((items.map (fun e =>
            if isTestEnabled tests cat e.1 then (e.1, false) else e)).filter
          (fun x => isTestEnabled tests cat x.1)).all (fun x => x.2) = false := by
        rw [filter_map_setval (fun n => isTestEnabled tests cat n) false items]
        exact all_const_snd _ false hEnil
      have h2 : selectCategory tests cat (items.map (fun e =>
            if isTestEnabled tests cat e.1 then (e.1, false) else e)) =
          items.map (fun e => if isTestEnabled tests cat e.1 then (e.1, true) else e) := by
        rw [selectCategory_char, hall1]
        simp only [Bool.not_false]
        exact map_setval_setval (fun n => isTestEnabled tests cat n) false true items
      rw [h1, h2]
      refine map_setval_id _ true items fun e he hp => ?_
      exact List.all_eq_true.mp hall e (List.mem_filter.mpr ⟨he, by simpa using hp⟩)
    · have hval1 : (items.filter (fun x => isTestEnabled tests cat x.1)).all
          (fun x => x.2) = false := by
        cases hEget : items.filter (fun x => isTestEnabled tests cat x.1) with
        | nil => exact absurd hEget hEnil
        | cons e0 es =>
          have h0 : (!e0.2) = true :=
            List.all_eq_true.mp (hEget ▸ hallf) e0 (List.mem_cons_self _ _)
          have h0f : e0.2 = false := by
            cases h : e0.2
            · rfl
            · rw [h] at h0; simp at h0
          rw [List.all_cons, h0f]
          rfl
      have h1 : selectCategory tests cat items =
          items.map (fun e => if isTestEnabled tests cat e.1 then (e.1, true) else e) := by
        rw [selectCategory_char, hval1]
        simp only [Bool.not_false]
      have hall1 : ((items.map (fun e =>
            if isTestEnabled tests cat e.1 then (e.1, true) else e)).filter
          (fun x => isTestEnabled tests cat x.1)).all (fun x => x.2) = true := by
        rw [filter_map_setval (fun n => isTestEnabled tests cat n) true items]
        exact all_const_snd _ true hEnil
      have h2 : selectCategory tests cat (items.map (fun e =>
            if isTestEnabled tests cat e.1 then (e.1, true) else e)) =
          items.map (fun e => if isTestEnabled tests cat e.1 then (e.1, false) else e) := by
        rw [selectCategory_char, hall1]
        simp only [Bool.not_true]
        exact map_setval_setval (fun n => isTestEnabled tests cat n) true false items
      rw [h1, h2]
      refine map_setval_id _ false items fun e he hp => ?_
      have hb := List.all_eq_true.mp hallf e (List.mem_filter.mpr ⟨he, by simpa using hp⟩)
      cases h : e.2
      · rfl
      · rw [h] at hb; simp at hb

theorem selectCategory_toggle_witness :
    (([(("a".toList : Str), true)].filter (fun x =>
        isTestEnabled (some [(("g-a".toList : Str),
          ({ server := "g".toList, toolName := "a".toList, args := JSValue.null }
            : PallasTool))]) ("g".toList) x.1)).all (fun x => x.2) = true ∨
      ([(("a".toList : Str), true)].filter (fun x =>
        isTestEnabled (some [(("g-a".toList : Str),
          ({ server := "g".toList, toolName := "a".toList, args := JSValue.null }
            : PallasTool))]) ("g".toList) x.1)).all (fun x => !x.2) = true) ∧
    selectCategory (some [(("g-a".toList : Str),
        ({ server := "g".toList, toolName := "a".toList, args := JSValue.null }
          : PallasTool))]) ("g".toList)
      (selectCategory (some [(("g-a".toList : Str),
        ({ server := "g".toList, toolName := "a".toList, args := JSValue.null }
          : PallasTool))]) ("g".toList) [(("a".toList : Str), true)])
      = [(("a".toList : Str), true)] :=
  ⟨Or.inl (by decide),
    (selectCategory_toggle _ _ _).2 (Or.inl (by decide))⟩

/-- C6 counterexample: with a mixed prior state — enabled item a
selected, enabled item b unselected — applying select-category twice
does not restore the prior values (it leaves both unselected), so the
claim as stated fails. -/
theorem selectCategory_toggle_counterexample :
    selectCategory (some [(("g-a".toList : Str),
        ({ server := "g".toList, toolName := "a".toList, args := JSValue.null }
          : PallasTool)),
      (("g-b".toList : Str),
        ({ server := "g".toList, toolName := "b".toList, args := JSValue.null }
          : PallasTool))]) ("g".toList)
      (selectCategory (some [(("g-a".toList : Str),
          ({ server := "g".toList, toolName := "a".toList, args := JSValue.null }
            : PallasTool)),
        (("g-b".toList : Str),
          ({ server := "g".toList, toolName := "b".toList, args := JSValue.null }
            : PallasTool))]) ("g".toList)
        [(("a".toList : Str), true), (("b".toList : Str), false)])
      ≠ [(("a".toList : Str), true), (("b".toList : Str), false)] := by
  decide

theorem firstSeen_cons (a : Str) (as : List Str) :
    firstSeen (a :: as) = a :: firstSeen (as.filter (fun b => b ≠ a)) := by
  rw [firstSeen]

theorem mem_firstSeen_aux (n : Nat) :
    ∀ (l : List Str), l.length ≤ n → ∀ b ∈ firstSeen l, b ∈ l := by
  induction n with
  | zero =>
    intro l hl b hb
    cases l with
    | nil => simp [firstSeen] at hb
    | cons a as => simp at hl
  | succ n ih =>
    intro l hl b hb
    cases l with
    | nil => simp [firstSeen] at hb
    | cons a as =>
      rw [firstSeen_cons] at hb
      rcases List.mem_cons.mp hb with rfl | hb2
      · exact List.mem_cons_self _ _
      · have hlen : (as.filter (fun x => x ≠ a)).length ≤ n := by
          have h1 := List.length_filter_le (fun x => x ≠ a) as
          have h2 : as.length ≤ n := by simpa using Nat.le_of_succ_le_succ hl
          omega
        have hmem := ih _ hlen b hb2
        exact List.mem_cons_of_mem _ (List.mem_of_mem_filter hmem)

theorem mem_firstSeen (l : List Str) (b : Str) (hb : b ∈ firstSeen l) : b ∈ l :=
  mem_firstSeen_aux l.length l (Nat.le_refl _) b hb

theorem partitionSpec_cons (t : Str) (ts : List Str) :
    partitionSpec (t :: ts) =
      { name := toolCategory t, expanded := true,
        items := toolItem t ::
          (ts.filter (fun x => toolCategory x = toolCategory t)).map toolItem }
      :: partitionSpec (ts.filter (fun x => toolCategory x ≠ toolCategory t)) := by
  simp only [partitionSpec, List.map_cons]
  rw [firstSeen_cons, List.map_cons]
  have harg : (ts.map toolCategory).filter (fun b => b ≠ toolCategory t)
      = (ts.filter (fun x => toolCategory x ≠ toolCategory t)).map toolCategory := by
    rw [List.map_filter]
    rfl
  rw [harg]
  congr 1
  · rw [List.filter_cons_of_pos (by simp), List.map_cons]
  · refine List.map_congr_left fun d hd => ?_
    have hdmem := mem_firstSeen _ _ hd
    obtain ⟨x, hx, rfl⟩ := List.mem_map.mp hdmem
    have hxne : toolCategory x ≠ toolCategory t := by
      simpa using (List.mem_filter.mp hx).2
    have hfilt : (t :: ts).filter (fun y => toolCategory y = toolCategory x)
        = ts.filter (fun y => toolCategory y = toolCategory x) :=
      List.filter_cons_of_neg (by simpa using fun h => hxne h.symm)
    have hff : (ts.filter (fun y => toolCategory y ≠ toolCategory t)).filter
          (fun y => toolCategory y = toolCategory x)
        = ts.filter (fun y => toolCategory y = toolCategory x) := by
      rw [List.filter_filter]
      refine congrArg (fun p => List.filter p ts) (funext fun a => ?_)
      by_cases hca : toolCategory a = toolCategory x
      · have hne2 : toolCategory a ≠ toolCategory t := hca ▸ hxne
        simp [hca, hne2, hxne]
      · simp [hca]
    rw [hfilt, hff]

theorem firstSeen_nil : firstSeen [] = [] := by
  rw [firstSeen]

theorem foldl_insertTool_spec (ts : List Str) :
    ∀ m : List Category,
      ts.foldl (fun acc t => insertTool acc (toolCategory t) (toolItem t)) m =
        m.map (fun c => { c with items := c.items ++
            (ts.filter (fun x => toolCategory x = c.name)).map toolItem })
        ++ partitionSpec (ts.filter (fun x =>
            !(m.any (fun c => c.name = toolCategory x)))) := by
  induction ts with
  | nil =>
    intro m
    simp only [List.foldl_nil, List.filter_nil, List.map_nil, List.append_nil]
    rw [show partitionSpec [] = ([] : List Category) from by
      simp [partitionSpec, firstSeen_nil], List.append_nil]
    rw [show (fun c : Category => { c with items := c.items }) = id from
      funext fun c => rfl, List.map_id]
  | cons t ts ih =>
    intro m
    rw [List.foldl_cons, ih (insertTool m (toolCategory t) (toolItem t))]
    by_cases hmem : m.any (fun c => c.name = toolCategory t) = true
    · rw [show insertTool m (toolCategory t) (toolItem t) =
          m.map (fun c => if c.name = toolCategory t then
            { c with items := c.items ++ [toolItem t] } else c) from by
        simp only [insertTool, if_pos hmem]]
      have hany : ∀ x : Str, ((m.map (fun c => if c.name = toolCategory t then
          { c with items := c.items ++ [toolItem t] } else c)).any
            (fun c => c.name = x)) = m.any (fun c => c.name = x) := by
        intro x
        rw [List.any_map]
        refine congrArg (fun p => List.any m p) (funext fun c => ?_)
        by_cases hc : c.name = toolCategory t
        · simp [Function.comp, hc]
        · simp [Function.comp, hc]
      have hpred : (fun x => !((m.map (fun c => if c.name = toolCategory t then
          { c with items := c.items ++ [toolItem t] } else c)).any
            (fun c => c.name = toolCategory x)))
          = (fun x => !(m.any (fun c => c.name = toolCategory x))) :=
        funext fun x => by rw [hany (toolCategory x)]
      rw [hpred]
      rw [List.filter_cons_of_neg (by simp [hmem])]
      rw [List.map_map]
      refine congrArg (fun l => l ++ partitionSpec
        (ts.filter (fun x => !(m.any (fun c => c.name = toolCategory x))))) ?_
      refine List.map_congr_left fun c _ => ?_
      by_cases hcn : c.name = toolCategory t
      · simp only [Function.comp, if_pos hcn]
        rw [List.filter_cons_of_pos (by simp [hcn]), List.map_cons]
        simp [List.append_assoc]
      · simp only [Function.comp, if_neg hcn]
        rw [List.filter_cons_of_neg
          (fun h => hcn (of_decide_eq_true h).symm)]
    · have hmfalse : m.any (fun c => c.name = toolCategory t) = false := by
        cases h : m.any (fun c => c.name = toolCategory t)
        · rfl
        · exact absurd h hmem
      rw [show insertTool m (toolCategory t) (toolItem t) =
          m ++ [(⟨toolCategory t, true, [toolItem t]⟩ : Category)] from by
        simp only [insertTool, if_neg hmem]]
      rw [List.map_append]
      have hpred : (fun x => !((m ++ [(⟨toolCategory t, true, [toolItem t]⟩ : Category)]).any
            (fun c => c.name = toolCategory x)))
          = fun x => (!(m.any (fun c => c.name = toolCategory x))
              && !(decide (toolCategory t = toolCategory x))) := by
        funext x
        rw [List.any_append]
        simp [Bool.not_or]
      rw [hpred]
      rw [List.filter_cons_of_pos (by simp [hmfalse]), partitionSpec_cons]
      have hmapm : m.map (fun c => { c with items := c.items ++
            ((t :: ts).filter (fun x => toolCategory x = c.name)).map toolItem })
          = m.map (fun c => { c with items := c.items ++
            (ts.filter (fun x => toolCategory x = c.name)).map toolItem }) := by
        refine List.map_congr_left fun c hc => ?_
        have hcne : ¬(c.name = toolCategory t) := fun hx =>
          absurd (List.any_eq_true.mpr ⟨c, hc, decide_eq_true hx⟩)
            (by rw [hmfalse]; exact Bool.false_ne_true)
        rw [List.filter_cons_of_neg (fun h => hcne (of_decide_eq_true h).symm)]
      rw [hmapm]
      have hfcat : (ts.filter (fun x =>
            !(m.any (fun c => c.name = toolCategory x)))).filter
            (fun x => toolCategory x = toolCategory t)
          = ts.filter (fun x => toolCategory x = toolCategory t) := by
        rw [List.filter_filter]
        refine congrArg (fun p => List.filter p ts) (funext fun a => ?_)
        by_cases hca : toolCategory a = toolCategory t
        · simp [hca, hmfalse]
        · simp [hca]
      have hfne : (ts.filter (fun x =>
            !(m.any (fun c => c.name = toolCategory x)))).filter
            (fun x => toolCategory x ≠ toolCategory t)
          = ts.filter (fun x => (!(m.any (fun c => c.name = toolCategory x))
              && !(decide (toolCategory t = toolCategory x)))) := by
        rw [List.filter_filter]
        refine congrArg (fun p => List.filter p ts) (funext fun a => ?_)
        by_cases hca : toolCategory a = toolCategory t
        · simp [hca]
        · simp [hca, (Ne.symm hca : toolCategory t ≠ toolCategory a)]
      rw [hfcat, hfne]
      simp only [List.map_cons, List.map_nil]
      rw [List.append_assoc, List.singleton_append]
      rfl

/-- C2 (amended): the partitioner realizes the amended specification
partition — each tool name with no dash goes to the uncategorized
category under its full name, a name with its first dash at position i
goes to the category named by the prefix with the suffix as item name
unless that prefix is empty (a name starting with the dash), which
ensureCategory coerces to the uncategorized category with the suffix as
item name; categories appear in first-seen order and items preserve
input order; in particular the input a-one, a-two, b-one yields category
a with items one, two and then category b with item one, and the
leading-dash name -abc is filed under uncategorized with item abc. -/
theorem parsedToolForSelector_spec :
    (∀ tools : List Str, parsedToolForSelector tools = partitionSpec tools) ∧
    parsedToolForSelector ["a-one".toList, "a-two".toList, "b-one".toList] =
      [{ name := "a".toList, expanded := true,
         items := ["one".toList, "two".toList] },
       { name := "b".toList, expanded := true, items := ["one".toList] }] ∧
    parsedToolForSelector ["-abc".toList] =
      [{ name := "uncategorized".toList, expanded := true,
         items := ["abc".toList] }] := by
  refine ⟨?_, by decide, by decide⟩
  intro tools
  rw [show parsedToolForSelector tools =
      tools.foldl (fun acc t => insertTool acc (toolCategory t) (toolItem t)) []
    from rfl]
  rw [foldl_insertTool_spec tools []]
  simp only [List.map_nil, List.nil_append, List.any_nil, Bool.not_false,
    List.filter_true]

/-- C2 counterexample: the tool name -abc has its first delimiter at
position 0, so the claim as stated files it under the category named by
the empty prefix name[0:0]; the code instead coerces the empty (falsy)
prefix in ensureCategory and files the item under uncategorized, so no
empty-named category is produced. -/
theorem parsedToolForSelector_counterexample :
    parsedToolForSelector ["-abc".toList] =
      [{ name := "uncategorized".toList, expanded := true,
         items := ["abc".toList] }] ∧
    parsedToolForSelector ["-abc".toList] ≠
      [{ name := ([] : Str), expanded := true, items := ["abc".toList] }] :=
  ⟨by decide, by decide⟩

theorem parseCSVLineAux_cons (inQ : Bool) (cur : Str) (c : Char) (rest : Str) :
    parseCSVLineAux inQ cur (c :: rest) =
      if c = '"' ∧ inQ = true ∧ rest.head? = some '"' then
        parseCSVLineAux inQ (cur ++ ['"']) rest.tail
      else if c = '"' then parseCSVLineAux (!inQ) cur rest
      else if c = ',' ∧ inQ = false then cur :: parseCSVLineAux inQ [] rest
      else parseCSVLineAux inQ (cur ++ [c]) rest := by
  cases inQ <;> by_cases hc : c = '"'
  · subst hc
    cases rest <;> simp [parseCSVLineAux]
  · by_cases hcm : c = ','
    · subst hcm
      simp [parseCSVLineAux, hc]
    · cases rest <;> simp [parseCSVLineAux, hc, hcm]
  · subst hc
    cases rest with
    | nil => simp [parseCSVLineAux]
    | cons r rs =>
      by_cases hr : r = '"'
      · subst hr
        simp [parseCSVLineAux]
      · simp [parseCSVLineAux, hr]
  · by_cases hcm : c = ','
    · subst hcm
      simp [parseCSVLineAux, hc]
    · cases rest <;> simp [parseCSVLineAux, hc, hcm]

theorem escapeQuotes_cons (c : Char) (s : Str) :
    escapeQuotes (c :: s) =
      if c = '"' then '"' :: '"' :: escapeQuotes s else c :: escapeQuotes s := by
  by_cases hc : c = '"'
  · subst hc
    simp [escapeQuotes]
  · simp [escapeQuotes, hc]

theorem parseCSVLineAux_quoted_end (s : Str) :
    ∀ cur : Str, parseCSVLineAux true cur (escapeQuotes s ++ ['"']) = [cur ++ s] := by
  induction s with
  | nil =>
    intro cur
    rw [show escapeQuotes [] = [] from rfl, List.nil_append, parseCSVLineAux_cons]
    rw [if_neg (by simp), if_pos rfl]
    simp [parseCSVLineAux]
  | cons c s2 ih =>
    intro cur
    rw [escapeQuotes_cons]
    by_cases hc : c = '"'
    · subst hc
      rw [if_pos rfl]
      rw [List.cons_append, List.cons_append, parseCSVLineAux_cons]
      rw [if_pos ⟨rfl, rfl, by simp⟩]
      simp only [List.tail_cons]
      rw [ih (cur ++ ['"'])]
      simp
    · rw [if_neg hc, List.cons_append, parseCSVLineAux_cons]
      rw [if_neg (by simp [hc]), if_neg hc, if_neg (by simp)]
      rw [ih (cur ++ [c])]
      simp

theorem parseCSVLineAux_quoted_comma (s : Str) :
    ∀ (cur rest : Str),
      parseCSVLineAux true cur (escapeQuotes s ++ '"' :: ',' :: rest) =
        (cur ++ s) :: parseCSVLineAux false [] rest := by
  induction s with
  | nil =>
    intro cur rest
    rw [show escapeQuotes [] = [] from rfl, List.nil_append, parseCSVLineAux_cons]
    rw [if_neg (by simp), if_pos rfl]
    rw [parseCSVLineAux_cons]
    rw [if_neg (by simp), if_neg (by simp), if_pos ⟨rfl, rfl⟩]
    simp
  | cons c s2 ih =>
    intro cur rest
    rw [escapeQuotes_cons]
    by_cases hc : c = '"'
    · subst hc
      rw [if_pos rfl]
      rw [List.cons_append, List.cons_append, parseCSVLineAux_cons]
      rw [if_pos ⟨rfl, rfl, by simp⟩]
      simp only [List.tail_cons]
      rw [ih (cur ++ ['"']) rest]
      simp
    · rw [if_neg hc, List.cons_append, parseCSVLineAux_cons]
      rw [if_neg (by simp [hc]), if_neg hc, if_neg (by simp)]
      rw [ih (cur ++ [c]) rest]
      simp

theorem parseCSVLineAux_plain_comma (a : Str) :
    ∀ (cur rest : Str), (∀ c ∈ a, c ≠ '"' ∧ c ≠ ',') →
      parseCSVLineAux false cur (a ++ ',' :: rest) =
        (cur ++ a) :: parseCSVLineAux false [] rest := by
  induction a with
  | nil =>
    intro cur rest _
    rw [List.nil_append, parseCSVLineAux_cons]
    rw [if_neg (by simp), if_neg (by simp), if_pos ⟨rfl, rfl⟩]
    simp
  | cons c a2 ih =>
    intro cur rest hok
    have hc := hok c (List.mem_cons_self _ _)
    rw [List.cons_append, parseCSVLineAux_cons]
    rw [if_neg (by simp [hc.1]), if_neg hc.1, if_neg (by simp [hc.2])]
    rw [ih (cur ++ [c]) rest (fun d hd => hok d (List.mem_cons_of_mem _ hd))]
    simp

/-- C8 (amended): within one line the parser treats two consecutive
quotes inside a quoted field as one literal quote, a comma inside quotes
as field content, and a comma outside quotes as ending the field, so a
double-quote-delimited field may contain the delimiter (and doubled
quotes) and still parse as a single field; but a quoted field containing
a newline does not parse as a single field, because parseCSVText splits
the text on every newline before any quote processing — the scenario
text with a quoted x-newline-y field parses as two separate rows. -/
theorem parseCSVLine_spec :
    (∀ s : Str, parseCSVLine ('"' :: (escapeQuotes s ++ ['"'])) = [s]) ∧
    (∀ s rest : Str, parseCSVLine ('"' :: (escapeQuotes s ++ '"' :: ',' :: rest)) =
      s :: parseCSVLine rest) ∧
    (∀ a rest : Str, (∀ c ∈ a, c ≠ '"' ∧ c ≠ ',') →
      parseCSVLine (a ++ ',' :: rest) = a :: parseCSVLine rest) ∧
    parseCSVText ("h\n\"x\ny\"".toList) =
      [[("h".toList, "x".toList)], [("h".toList, "y".toList)]] := by
  refine ⟨?_, ?_, ?_, by decide⟩
  · intro s
    show parseCSVLineAux false [] ('"' :: (escapeQuotes s ++ ['"'])) = [s]
    rw [parseCSVLineAux_cons]
    rw [if_neg (by simp), if_pos rfl, show (!false) = true from rfl]
    rw [parseCSVLineAux_quoted_end s []]
    rfl
  · intro s rest
    show parseCSVLineAux false [] ('"' :: (escapeQuotes s ++ '"' :: ',' :: rest)) =
      s :: parseCSVLineAux false [] rest
    rw [parseCSVLineAux_cons]
    rw [if_neg (by simp), if_pos rfl, show (!false) = true from rfl]
    rw [parseCSVLineAux_quoted_comma s [] rest]
    rfl
  · intro a rest hok
    exact parseCSVLineAux_plain_comma a [] rest hok

theorem parseCSVLine_spec_witness :
    ((∀ c ∈ ("ab".toList : Str), c ≠ '"' ∧ c ≠ ',') ∧
      parseCSVLine ("ab".toList ++ ',' :: "c".toList) =
        ("ab".toList : Str) :: parseCSVLine ("c".toList)) ∧
    parseCSVLine ('"' :: (escapeQuotes ("a,b".toList) ++ ['"'])) = [("a,b".toList : Str)] :=
  ⟨⟨by decide, parseCSVLine_spec.2.2.1 ("ab".toList) ("c".toList) (by decide)⟩,
    parseCSVLine_spec.1 ("a,b".toList)⟩

/-- C8 counterexample: the input text h newline quote x newline y quote
contains one double-quote-delimited field holding a newline; the parser
does not return it as a single field — it returns two rows, the field
content x in the first and y in the second — because the text is split
on newlines before quotes are interpreted.  This falsifies the claim
that a quoted field may contain newline characters and still parse as a
single field. -/
theorem parseCSVText_newline_counterexample :
    (parseCSVText ("h\n\"x\ny\"".toList)).length = 2 ∧
    parseCSVText ("h\n\"x\ny\"".toList) ≠
      [[("h".toList, ('x' :: '\n' :: 'y' :: []))]] :=
  ⟨by decide, by decide⟩
